import Mathlib

/-!
Verification of the ipcoal likelihood kernels.

Shallow embedding of `ipcoal/msc/src/likelihood.py` (the two MSC
log-likelihood kernels) and `ipcoal/smc/src/likelihood.py` (the
waiting-distance kernel, the event-rate dispatch, and the in-place
Ne-update utility).

Modelling conventions:
- numpy float64 values are modelled as real numbers (`ℝ`).  A float
  that may carry the `np.inf` sentinel (field 5 of an embedding row)
  is modelled as a real number together with a Boolean flag
  (`distInf`) marking the sentinel.
- the genealogy embedding array (3-d, indexed
  [genealogy, row, field]) is modelled as a list of lists of `Row`
  records; only fields 2..5 are used by the kernels and only those
  are carried.
- accumulated log-likelihoods live in `EReal` so that the `np.inf`
  penalty added for degenerate probabilities, and its propagation
  through sums and the final negation, are represented exactly.
- fallible numpy operations (broadcasting of mismatched 1-d shapes
  in `scipy.stats.expon.logpdf`) return `Option`; `none` is the
  `ValueError` raised by numpy.
-/

noncomputable section
open scoped Classical

namespace Ipcoal

/-- One row of a genealogy embedding array.  Fields are named after
their column index in the numpy array: `spIdx` is field 2 (the
species-interval identifier, an integer stored as float), `neff` is
field 3 (the population size), `nedges` is field 4 (the lineage
count), and field 5 (the temporal length) is modelled by the pair
`dist`/`distInf`: when `distInf` is `true` the stored float is the
`np.inf` sentinel and `dist` is irrelevant. -/
structure Row where
  spIdx : ℕ
  neff : ℝ
  nedges : ℝ
  dist : ℝ
  distInf : Bool

instance : Inhabited Row := ⟨⟨0, 0, 0, 0, false⟩⟩

/-- Convention-A coalescent rate, from `likelihood.py` line 95:
`rate = 1 / (2 * iarr[0, 3])` (field 3 holds a raw diploid Ne).
On an empty group numpy would raise `IndexError`; the model returns
the junk value obtained from the default row. -/
def coalRateA (iarr : List Row) : ℝ := 1 / (2 * iarr.headI.neff)

/-- Convention-B coalescent rate, from `likelihood.py` line 147:
`rate = 1 / iarr[0, 3]` (field 3 already holds `2 * Ne`). -/
def coalRateB (iarr : List Row) : ℝ := 1 / iarr.headI.neff

/-- Multiplicative factor contributed by a non-terminal row of a
species-interval group, from `likelihood.py` lines 100-106:
`prob *= rate * np.exp(-lambda_ * dist)` with
`lambda_ = rate * (nedges * (nedges - 1)) / 2`.
If the row carried the `np.inf` sentinel the float computation
yields `rate * exp(-inf) = 0` whenever `lambda_ > 0`, which is the
only case permitted by the data invariant (a non-terminal row ends
in a coalescence, so `nedges ≥ 2`); the `distInf` branch encodes
that value. -/
def rowFactor (rate : ℝ) (r : Row) : ℝ :=
  rate * (if r.distInf then 0
          else Real.exp (-(rate * (r.nedges * (r.nedges - 1) / 2) * r.dist)))

/-- Multiplicative factor contributed by the terminal row of a
species-interval group, from `likelihood.py` lines 108-114:
`if not np.isinf(dist): prob *= np.exp(-lambda_ * dist)`.
The sentinel row contributes no factor (modelled as `1`). -/
def lastFactor (rate : ℝ) (r : Row) : ℝ :=
  if r.distInf then 1
  else Real.exp (-(rate * (r.nedges * (r.nedges - 1) / 2) * r.dist))

/-- Probability of all events inside one species-interval group
(`prob` in lines 98-114): the product of `rowFactor` over every row
but the last, times the terminal `lastFactor`.  An empty group
contributes `1` (numpy would raise on indexing `iarr[-1]`). -/
def intervalProb (rate : ℝ) (iarr : List Row) : ℝ :=
  (iarr.dropLast.map (rowFactor rate)).prod *
    ((iarr.getLast?).elim 1 (lastFactor rate))

/-- Per-interval log-likelihood contribution, lines 116-120:
`log(prob)` if `prob > 0`, else the `np.inf` penalty. -/
def intervalLoglik (rate : ℝ) (iarr : List Row) : EReal :=
  if 0 < intervalProb rate iarr
  then ((Real.log (intervalProb rate iarr) : ℝ) : EReal)
  else (⊤ : EReal)

/-- Log-likelihood of one genealogy (`loglik` accumulated over
`sval in range(nspecies + 1)`, lines 90-120).  The group for `sval`
is `garr[garr[:, 2] == sval]` and the rate is computed from its
first row by the supplied convention. -/
def gtreeLoglik (rateFn : List Row → ℝ) (ns : ℕ) (garr : List Row) : EReal :=
  ((List.range (ns + 1)).map (fun sval =>
    intervalLoglik (rateFn (garr.filter (fun r => decide (r.spIdx = sval))))
      (garr.filter (fun r => decide (r.spIdx = sval))))).sum

/-- `nspecies = int(embedding[0, -1, 2])`, line 82: the
species-interval id of the last row of the first genealogy. -/
def nspecies (emb : List (List Row)) : ℕ :=
  ((emb.headI).getLast?).elim 0 Row.spIdx

/-- Shared body of the two MSC kernels (lines 81-122 and 133-174 are
textually identical except for the coalescent-rate line, which is
passed in as `rateFn`): sum the per-genealogy log-likelihoods and
negate. -/
def mscLoglikCore (rateFn : List Row → ℝ) (emb : List (List Row)) : EReal :=
  -((emb.map (gtreeLoglik rateFn (nspecies emb))).sum)

/-- `_get_msc_loglik_from_embedding_array` (lines 62-122): the
convention-A kernel, field 3 holds raw diploid Ne. -/
def _get_msc_loglik_from_embedding_array (emb : List (List Row)) : EReal :=
  mscLoglikCore coalRateA emb

/-- `_get_msc_loglik_from_embedding` (lines 125-174): the
convention-B kernel, field 3 holds `2 * Ne`. -/
def _get_msc_loglik_from_embedding (emb : List (List Row)) : EReal :=
  mscLoglikCore coalRateB emb

/-! ### `ipcoal/smc/src/likelihood.py` -/

/-- The `TreeEmbedding` bundle consumed by the waiting-distance
kernel: the genealogy embedding array `emb` plus the auxiliary
arrays `enc`, `barr`, `sarr`, `rarr`.  Only `emb` (for its leading
dimension) and `sarr` (the per-genealogy total branch lengths, used
by the event-0 rate provider) are inspected by the code under
verification; the rest are passed through to rate providers
unmodified and are modelled with placeholder array types. -/
structure TreeEmbedding where
  emb : List (List Row)
  enc : List (List ℝ)
  barr : List (List ℝ)
  sarr : List ℝ
  rarr : List (List ℝ)

/-- Signature of a rate provider as called on lines 97-105: it
receives the embedding bundle, the recombination rate and the
genealogy-index array, and returns one rate per genealogy it chooses
to report on. -/
def RateFn : Type := TreeEmbedding → ℝ → List ℕ → List ℝ

/-- `get_recomb_event_lambdas` (lines 44-47): returns
`recombination_rate * sarr`, elementwise over the *full* `sarr`.
Its Python signature is `(sarr, recombination_rate, *args, **kwargs)`,
so the keyword arguments `emb=`, `enc=`, `barr=`, `rarr=` and `idxs=`
passed at the call site on lines 97-105 are absorbed by `**kwargs`
and ignored — in particular the genealogy-index subset `idxs`. -/
def get_recomb_event_lambdas (sarr : List ℝ) (recombination_rate : ℝ) : List ℝ :=
  sarr.map (fun s => recombination_rate * s)

/-- Modelled from the spec: the tree-change (`event_type = 1`) and
topology-change (`event_type = 2`) rate providers live in
`ipcoal/smc/src/ms_smc_tree_prob.py` and `ms_smc_topo_prob.py`,
which are not part of the sources under verification.  The spec
declares them external collaborators reached only through the
`RateFn` contract, so the kernel is parameterised by them. -/
def recombEventRateFn : RateFn :=
  fun E recombination_rate _ => get_recomb_event_lambdas E.sarr recombination_rate

/-- Elementwise `scipy.stats.expon.logpdf(x, scale=s)`:
`-(x / s) - log(s)` for `x ≥ 0`, and `-inf` for `x < 0`.  scipy
returns NaN for `s ≤ 0`; NaN has no counterpart in `ℝ`, so for
nonpositive scales the model yields the junk value of real division
and `Real.log` instead (all claims about this kernel restrict to
positive rates). -/
def expon_logpdf (scale x : ℝ) : EReal :=
  if 0 ≤ x then (((-(x / scale) - Real.log scale : ℝ)) : EReal) else (⊥ : EReal)

/-- numpy broadcasting of two 1-d arrays, as performed inside
`stats.expon.logpdf(scale=1/rates, x=lengths)` on line 108: equal
lengths pair elementwise, a length-1 array is broadcast across the
other, and any other combination raises `ValueError` (`none`). -/
def broadcast1d (xs ys : List ℝ) : Option (List (ℝ × ℝ)) :=
  if xs.length = ys.length then some (xs.zip ys)
  else if xs.length = 1 then some (ys.map (fun y => (xs.headI, y)))
  else if ys.length = 1 then some (xs.map (fun x => (x, ys.headI)))
  else none

/-- Lines 107-109 of the waiting-distance kernel:
`logliks = stats.expon.logpdf(scale=1 / rates, x=lengths)` followed
by `return -np.sum(logliks)`. -/
def smcReduction (rates lengths : List ℝ) : Option EReal :=
  (broadcast1d rates lengths).map
    (fun ps => -(((ps.map (fun p => expon_logpdf (1 / p.1) p.2)).sum : EReal)))

/-- Lines 84-105 of `get_ms_smc_loglik_from_embedding`: select the
rate provider from `event_type` (`0` picks
`get_recomb_event_lambdas`, `1` picks the tree-change provider, and
*everything else* falls into the `else` branch and picks the
topology-change provider), default `idxs` to
`np.arange(embedding.emb.shape[0])`, and call the provider. -/
def smcRates (treeFn topoFn : RateFn) (E : TreeEmbedding)
    (recombination_rate : ℝ) (event_type : ℤ) (idxs : Option (List ℕ)) : List ℝ :=
  let rate_function : RateFn :=
    if event_type = 0 then recombEventRateFn
    else if event_type = 1 then treeFn
    else topoFn
  rate_function E recombination_rate (idxs.getD (List.range E.emb.length))

/-- `get_ms_smc_loglik_from_embedding` (lines 50-109), parameterised
by the two external rate providers: compute the rates, then the
exponential log-pdf reduction. -/
def get_ms_smc_loglik_from_embedding (treeFn topoFn : RateFn) (E : TreeEmbedding)
    (recombination_rate : ℝ) (lengths : List ℝ) (event_type : ℤ)
    (idxs : Option (List ℕ)) : Option EReal :=
  smcReduction (smcRates treeFn topoFn E recombination_rate event_type idxs) lengths

/-- One masked assignment step of the per-branch loop of
`_update_neffs` (lines 39-41): a row whose field 2 equals the branch
index `ip.1` gets its field 3 overwritten with the value `ip.2`. -/
def applyPair (r : Row) (ip : ℕ × ℝ) : Row :=
  if r.spIdx = ip.1 then { r with neff := ip.2 } else r

/-- `_update_neffs` (lines 28-41).  The Python code branches on
`len(set(popsizes)) == 1` (modelled literally as
`popsizes.toFinset.card = 1`): in that case
`emb[:, :, 3] = popsizes[0]` overwrites field 3 of every row;
otherwise `for idx, popsize in enumerate(popsizes)` assigns
`popsize` to field 3 of the rows whose field 2 equals `idx`
(`emb[emb[:, :, 2] == idx, 3] = popsize`).  The in-place numpy
mutation is modelled functionally: the result is the updated array. -/
def _update_neffs (emb : List (List Row)) (popsizes : List ℝ) : List (List Row) :=
  if popsizes.toFinset.card = 1 then
    emb.map (List.map (fun r => { r with neff := popsizes.headI }))
  else
    popsizes.enum.foldl
      (fun acc ip => acc.map (List.map (fun r => applyPair r ip)))
      emb

/-- Row of a (modelled) embedding array at genealogy index `gi`,
row index `ri`; `none` when out of bounds.  Used to state
frame conditions about `_update_neffs`. -/
def rowAt (e : List (List Row)) (gi ri : ℕ) : Option Row :=
  (e.get? gi).bind (fun g => g.get? ri)

/-! ### Theorems about the MSC kernels -/

/-- The field-3 rescaling taking a convention-A array to the
corresponding convention-B array: every field-3 entry is multiplied
by 2 (`sc` rescales one row, `scaleNe2` a whole embedding array). -/
def sc (r : Row) : Row := { r with neff := 2 * r.neff }

/-- Multiply field 3 of every row of an embedding array by 2. -/
def scaleNe2 (emb : List (List Row)) : List (List Row) :=
  emb.map (List.map sc)

lemma rowFactor_sc (rate : ℝ) (r : Row) : rowFactor rate (sc r) = rowFactor rate r := rfl

lemma lastFactor_sc (rate : ℝ) (r : Row) : lastFactor rate (sc r) = lastFactor rate r := rfl

lemma intervalProb_sc (rate : ℝ) (l : List Row) :
    intervalProb rate (l.map sc) = intervalProb rate l := by
  unfold intervalProb
  rw [← List.map_dropLast, List.map_map, List.getLast?_map]
  rw [show (rowFactor rate ∘ sc) = rowFactor rate from funext (rowFactor_sc rate)]
  cases h : l.getLast? with
  | none => rfl
  | some r => simp [lastFactor_sc]

lemma intervalLoglik_sc (rate : ℝ) (l : List Row) :
    intervalLoglik rate (l.map sc) = intervalLoglik rate l := by
  unfold intervalLoglik
  rw [intervalProb_sc]

lemma filter_sc (sval : ℕ) (l : List Row) :
    (l.map sc).filter (fun r => decide (r.spIdx = sval)) =
      (l.filter (fun r => decide (r.spIdx = sval))).map sc := by
  rw [List.filter_map]
  rfl

lemma coalRateB_sc (l : List Row) : coalRateB (l.map sc) = coalRateA l := by
  cases l with
  | nil =>
      show (1 : ℝ) / (default : Row).neff = 1 / (2 * (default : Row).neff)
      rw [show ((default : Row).neff) = 0 from rfl]
      norm_num
  | cons hd tl => simp [coalRateA, coalRateB, sc, List.headI]

lemma gtreeLoglik_sc (ns : ℕ) (g : List Row) :
    gtreeLoglik coalRateA ns g = gtreeLoglik coalRateB ns (g.map sc) := by
  unfold gtreeLoglik
  congr 1
  apply List.map_congr_left
  intro sval _
  rw [filter_sc sval g, coalRateB_sc, intervalLoglik_sc]

lemma nspecies_scale (emb : List (List Row)) : nspecies (scaleNe2 emb) = nspecies emb := by
  unfold nspecies scaleNe2
  cases emb with
  | nil => rfl
  | cons g gs =>
      show ((g.map sc).getLast?).elim 0 Row.spIdx = (g.getLast?).elim 0 Row.spIdx
      rw [List.getLast?_map]
      cases g.getLast? <;> rfl

/-- Claim C1: for every embedding array whose field-3 entries are
all (finite and) positive, the convention-A kernel applied to the
array equals the convention-B kernel applied to the array with every
field-3 entry multiplied by 2.  (Finiteness is implicit in the `ℝ`
model; the equality in fact does not need the positivity hypothesis,
which the claim includes to keep the floats finite.) -/
theorem C1_convention_equivalence (emb : List (List Row))
    (hpos : ∀ g ∈ emb, ∀ r ∈ g, 0 < r.neff) :
    _get_msc_loglik_from_embedding_array emb =
      _get_msc_loglik_from_embedding (scaleNe2 emb) := by
  clear hpos
  unfold _get_msc_loglik_from_embedding_array _get_msc_loglik_from_embedding mscLoglikCore
  rw [nspecies_scale]
  unfold scaleNe2
  rw [List.map_map]
  congr 1
  refine congrArg List.sum (List.map_congr_left ?_)
  intro g _
  exact gtreeLoglik_sc (nspecies emb) g

/-- Witness for C1 at a concrete one-genealogy array. -/
theorem C1_convention_equivalence_witness :
    (∀ g ∈ ([[⟨0, 1, 2, 1, false⟩, ⟨0, 1, 1, 0, true⟩]] : List (List Row)),
      ∀ r ∈ g, 0 < r.neff) ∧
    _get_msc_loglik_from_embedding_array [[⟨0, 1, 2, 1, false⟩, ⟨0, 1, 1, 0, true⟩]] =
      _get_msc_loglik_from_embedding
        (scaleNe2 [[⟨0, 1, 2, 1, false⟩, ⟨0, 1, 1, 0, true⟩]]) := by
  have hpos : ∀ g ∈ ([[⟨0, 1, 2, 1, false⟩, ⟨0, 1, 1, 0, true⟩]] : List (List Row)),
      ∀ r ∈ g, 0 < r.neff := by
    intro g hg r hr
    simp only [List.mem_singleton] at hg
    subst hg
    rcases List.mem_cons.mp hr with h | h
    · subst h; norm_num
    · simp only [List.mem_singleton] at h
      subst h; norm_num
  exact ⟨hpos, C1_convention_equivalence _ hpos⟩

/-- Claim C2: in both MSC kernels (whose shared per-interval body is
`intervalProb`, see `mscLoglikCore`), every row of a species-interval
group except the last multiplies the running probability by exactly
`rate * exp(-lambda * dist)` with `lambda = rate * n * (n - 1) / 2`
— the factor written out literally on the right-hand side — and not
by `lambda * exp(-lambda * dist)`. -/
theorem C2_nonterminal_factor (rate : ℝ) (iarr : List Row)
    (hfin : ∀ r ∈ iarr.dropLast, r.distInf = false) :
    intervalProb rate iarr =
      (iarr.dropLast.map (fun r =>
        rate * Real.exp (-(rate * (r.nedges * (r.nedges - 1) / 2) * r.dist)))).prod *
      ((iarr.getLast?).elim 1 (lastFactor rate)) := by
  unfold intervalProb
  congr 1
  refine congrArg List.prod (List.map_congr_left ?_)
  intro r hr
  simp [rowFactor, hfin r hr]

/-- Witness for C2 at a concrete two-row group. -/
theorem C2_nonterminal_factor_witness :
    (∀ r ∈ ([⟨0, 1, 2, 1, false⟩, ⟨0, 1, 1, 0, true⟩] : List Row).dropLast,
      r.distInf = false) ∧
    intervalProb 1 [⟨0, 1, 2, 1, false⟩, ⟨0, 1, 1, 0, true⟩] =
      (([⟨0, 1, 2, 1, false⟩, ⟨0, 1, 1, 0, true⟩] : List Row).dropLast.map (fun r =>
        1 * Real.exp (-(1 * (r.nedges * (r.nedges - 1) / 2) * r.dist)))).prod *
      ((([⟨0, 1, 2, 1, false⟩, ⟨0, 1, 1, 0, true⟩] : List Row).getLast?).elim 1
        (lastFactor 1)) := by
  have hfin : ∀ r ∈ ([⟨0, 1, 2, 1, false⟩, ⟨0, 1, 1, 0, true⟩] : List Row).dropLast,
      r.distInf = false := by
    intro r hr
    simp only [List.dropLast, List.mem_singleton] at hr
    subst hr; rfl
  exact ⟨hfin, C2_nonterminal_factor 1 _ hfin⟩

/-- Claim C3: in both MSC kernels, the last row of a species-interval
group contributes the factor `exp(-lambda * dist)` when its distance
is finite, and no multiplicative factor at all when it carries the
unbounded sentinel. -/
theorem C3_terminal_row (rate : ℝ) (iarr : List Row) (r : Row)
    (hlast : iarr.getLast? = some r) :
    (r.distInf = false →
      intervalProb rate iarr =
        (iarr.dropLast.map (rowFactor rate)).prod *
          Real.exp (-(rate * (r.nedges * (r.nedges - 1) / 2) * r.dist))) ∧
    (r.distInf = true →
      intervalProb rate iarr = (iarr.dropLast.map (rowFactor rate)).prod) := by
  unfold intervalProb
  rw [hlast]
  constructor <;> intro hd <;> simp [lastFactor, hd]

/-- Witness for C3 at concrete one-row groups, in both the finite
and the sentinel case. -/
theorem C3_terminal_row_witness :
    (([⟨0, 1, 2, 1, false⟩] : List Row).getLast? = some ⟨0, 1, 2, 1, false⟩ ∧
      intervalProb 1 [⟨0, 1, 2, 1, false⟩] =
        (([⟨0, 1, 2, 1, false⟩] : List Row).dropLast.map (rowFactor 1)).prod *
          Real.exp (-(1 * ((2 : ℝ) * ((2 : ℝ) - 1) / 2) * (1 : ℝ)))) ∧
    (([⟨0, 1, 1, 0, true⟩] : List Row).getLast? = some ⟨0, 1, 1, 0, true⟩ ∧
      intervalProb 1 [⟨0, 1, 1, 0, true⟩] =
        (([⟨0, 1, 1, 0, true⟩] : List Row).dropLast.map (rowFactor 1)).prod) := by
  constructor
  · exact ⟨rfl, (C3_terminal_row 1 [⟨0, 1, 2, 1, false⟩] ⟨0, 1, 2, 1, false⟩ rfl).1 rfl⟩
  · exact ⟨rfl, (C3_terminal_row 1 [⟨0, 1, 1, 0, true⟩] ⟨0, 1, 1, 0, true⟩ rfl).2 rfl⟩

/-- Claim C4 (code evaluation): on an embedding array whose single
genealogy has a nonpositive per-interval probability, the
convention-A kernel raises no error but returns `⊥` (negative
infinity, because line 120 adds `+np.inf` to the *log-likelihood*
accumulator and line 122 then negates the sum), not the `⊤`
(positive infinity) the claim demands for the returned negative
log-likelihood. -/
theorem C4_degenerate_returns_bot : _get_msc_loglik_from_embedding_array
    [[⟨0, -1, 2, 1, false⟩, ⟨0, -1, 1, 1, true⟩]] = (⊥ : EReal) := by
  have hexp := Real.exp_pos (-(1 / (2 * (-1 : ℝ)) * (2 * (2 - 1) / 2) * 1))
  have hprob : intervalProb (coalRateA [⟨0, -1, 2, 1, false⟩, ⟨0, -1, 1, 1, true⟩])
      [⟨0, -1, 2, 1, false⟩, ⟨0, -1, 1, 1, true⟩] =
      1 / (2 * (-1 : ℝ)) * Real.exp (-(1 / (2 * (-1 : ℝ)) * (2 * (2 - 1) / 2) * 1)) := by
    simp [intervalProb, coalRateA, rowFactor, lastFactor, List.headI]
  have hneg : ¬ (0 < intervalProb (coalRateA [⟨0, -1, 2, 1, false⟩, ⟨0, -1, 1, 1, true⟩])
      [⟨0, -1, 2, 1, false⟩, ⟨0, -1, 1, 1, true⟩]) := by
    rw [hprob]
    nlinarith [hexp]
  unfold _get_msc_loglik_from_embedding_array mscLoglikCore nspecies gtreeLoglik
  simp only [List.headI, List.getLast?, Option.elim, List.range_succ, List.range_zero, List.map,
    List.filter, decide_True, List.sum_cons, List.sum_nil, List.nil_append, List.singleton_append,
    intervalLoglik, hneg, if_false]
  simp

/-! ### Theorems about the waiting-distance kernel -/

lemma expon_logpdf_inv_rate (r l : ℝ) (hl : 0 ≤ l) :
    expon_logpdf (1 / r) l = ((Real.log r - r * l : ℝ) : EReal) := by
  unfold expon_logpdf
  rw [if_pos hl]
  congr 1
  rw [one_div, Real.log_inv, div_inv_eq_mul]
  ring

lemma coe_list_sum (l : List ℝ) :
    ((l.sum : ℝ) : EReal) = (l.map Real.toEReal).sum := by
  induction l with
  | nil => rfl
  | cons a t ih => simp [List.sum_cons, EReal.coe_add, ih]

lemma smcReduction_formula (rates lengths : List ℝ)
    (hlen : rates.length = lengths.length)
    (hl : ∀ l ∈ lengths, 0 ≤ l) :
    smcReduction rates lengths =
      some ((((-(((rates.zip lengths).map
        (fun p => Real.log p.1 - p.1 * p.2)).sum)) : ℝ) : EReal)) := by
  unfold smcReduction broadcast1d
  rw [if_pos hlen]
  simp only [Option.map_some']
  congr 1
  have hmap : (rates.zip lengths).map (fun p => expon_logpdf (1 / p.1) p.2)
      = ((rates.zip lengths).map (fun p => Real.log p.1 - p.1 * p.2)).map
          Real.toEReal := by
    rw [List.map_map]
    apply List.map_congr_left
    intro p hp
    exact expon_logpdf_inv_rate p.1 p.2 (hl p.2 (List.of_mem_zip hp).2)
  rw [hmap, ← coe_list_sum, ← EReal.coe_neg]

/-- Claim C5: for strictly positive rates and non-negative observed
waiting distances of equal count, lines 107-109 of the
waiting-distance kernel (the `smcReduction` stage) return the
negative sum over genealogies of `log(rate) - rate * length`; a
batch of `N` identical `(r, l)` pairs yields `N` times the
single-genealogy value. -/
theorem C5_waiting_distance_formula :
    (∀ (rates lengths : List ℝ), rates.length = lengths.length →
      (∀ r ∈ rates, 0 < r) → (∀ l ∈ lengths, 0 ≤ l) →
      smcReduction rates lengths =
        some ((((-(((rates.zip lengths).map
          (fun p => Real.log p.1 - p.1 * p.2)).sum)) : ℝ) : EReal))) ∧
    (∀ (N : ℕ) (r l : ℝ), 0 < r → 0 ≤ l →
      smcReduction (List.replicate N r) (List.replicate N l) =
        some ((((-((N : ℝ) * (Real.log r - r * l))) : ℝ) : EReal))) := by
  constructor
  · intro rates lengths hlen _ hl
    exact smcReduction_formula rates lengths hlen hl
  · intro N r l _ hl
    rw [smcReduction_formula (List.replicate N r) (List.replicate N l)
      (by simp) (fun x hx => by rw [(List.eq_of_mem_replicate hx)]; exact hl)]
    congr 2
    rw [List.zip_replicate', List.map_replicate, List.sum_replicate, nsmul_eq_mul]

/-- Witness for C5 at a one-genealogy batch. -/
theorem C5_waiting_distance_formula_witness :
    (([(1 : ℝ)] : List ℝ).length = ([(0 : ℝ)] : List ℝ).length ∧
      (∀ r ∈ ([(1 : ℝ)] : List ℝ), 0 < r) ∧
      (∀ l ∈ ([(0 : ℝ)] : List ℝ), 0 ≤ l)) ∧
    smcReduction [(1 : ℝ)] [(0 : ℝ)] =
      some ((((-(((([(1 : ℝ)] : List ℝ).zip ([(0 : ℝ)] : List ℝ)).map
        (fun p => Real.log p.1 - p.1 * p.2)).sum)) : ℝ) : EReal)) := by
  have h2 : ∀ r ∈ ([(1 : ℝ)] : List ℝ), 0 < r := by
    intro r hr
    simp only [List.mem_singleton] at hr
    subst hr
    norm_num
  have h3 : ∀ l ∈ ([(0 : ℝ)] : List ℝ), 0 ≤ l := by
    intro l hl
    simp only [List.mem_singleton] at hl
    subst hl
    norm_num
  exact ⟨⟨rfl, h2, h3⟩, C5_waiting_distance_formula.1 [1] [0] rfl h2 h3⟩

/-- Claim C6, counterexample: a call to the waiting-distance kernel
with 2 genealogies (so 2 rates are produced, no subset requested)
but only 1 observed waiting distance does not fail — numpy
broadcasting of the size-1 `lengths` array silently succeeds and the
kernel returns a value. -/
theorem C6_counterexample_broadcast :
    get_ms_smc_loglik_from_embedding (fun _ _ _ => []) (fun _ _ _ => [])
      ⟨[[], []], [], [], [1, 1], []⟩ 1 [0] 0 none = some 0 := by
  unfold get_ms_smc_loglik_from_embedding smcRates recombEventRateFn
    get_recomb_event_lambdas smcReduction broadcast1d expon_logpdf
  norm_num

/-- Claim C6 as amended: the call fails with a shape mismatch (and
produces no output) only when the observation count differs from the
count of rates actually produced and neither count is 1; a size-1
array on either side is silently broadcast. -/
theorem C6_shape_mismatch_amended (treeFn topoFn : RateFn) (E : TreeEmbedding)
    (rr : ℝ) (lengths : List ℝ) (event_type : ℤ) (idxs : Option (List ℕ))
    (hne : (smcRates treeFn topoFn E rr event_type idxs).length ≠ lengths.length)
    (hr1 : (smcRates treeFn topoFn E rr event_type idxs).length ≠ 1)
    (hl1 : lengths.length ≠ 1) :
    get_ms_smc_loglik_from_embedding treeFn topoFn E rr lengths event_type idxs = none := by
  unfold get_ms_smc_loglik_from_embedding smcReduction broadcast1d
  simp [hne, hr1, hl1]

/-- Witness for the amended C6: 2 rates against 3 observations. -/
theorem C6_shape_mismatch_amended_witness :
    ((smcRates (fun _ _ _ => []) (fun _ _ _ => [])
        ⟨[[], []], [], [], [1, 1], []⟩ 1 0 none).length ≠ ([0, 0, 0] : List ℝ).length ∧
      (smcRates (fun _ _ _ => []) (fun _ _ _ => [])
        ⟨[[], []], [], [], [1, 1], []⟩ 1 0 none).length ≠ 1 ∧
      ([0, 0, 0] : List ℝ).length ≠ 1) ∧
    get_ms_smc_loglik_from_embedding (fun _ _ _ => []) (fun _ _ _ => [])
      ⟨[[], []], [], [], [1, 1], []⟩ 1 [0, 0, 0] 0 none = none := by
  have hlen : (smcRates (fun _ _ _ => ([] : List ℝ)) (fun _ _ _ => ([] : List ℝ))
      ⟨[[], []], [], [], [1, 1], []⟩ 1 0 none).length = 2 := rfl
  have hne : (smcRates (fun _ _ _ => ([] : List ℝ)) (fun _ _ _ => ([] : List ℝ))
      ⟨[[], []], [], [], [1, 1], []⟩ 1 0 none).length ≠ ([0, 0, 0] : List ℝ).length := by
    rw [hlen]
    norm_num
  have hr1 : (smcRates (fun _ _ _ => ([] : List ℝ)) (fun _ _ _ => ([] : List ℝ))
      ⟨[[], []], [], [], [1, 1], []⟩ 1 0 none).length ≠ 1 := by
    rw [hlen]
    norm_num
  have hl1 : ([0, 0, 0] : List ℝ).length ≠ 1 := by norm_num
  exact ⟨⟨hne, hr1, hl1⟩,
    C6_shape_mismatch_amended _ _ _ _ _ _ _ hne hr1 hl1⟩

/-- Claim C7, counterexample: the unrecognized event-type selector 3
is not rejected — the call succeeds (returning a value computed from
the topology-change provider's rates) and gives the same result as
the recognized selector 2. -/
theorem C7_counterexample_dispatch :
    get_ms_smc_loglik_from_embedding (fun _ _ _ => [5]) (fun _ _ _ => [1])
        ⟨[[]], [], [], [1], []⟩ 1 [0] 3 none = some 0 ∧
    get_ms_smc_loglik_from_embedding (fun _ _ _ => [5]) (fun _ _ _ => [1])
        ⟨[[]], [], [], [1], []⟩ 1 [0] 3 none =
      get_ms_smc_loglik_from_embedding (fun _ _ _ => [5]) (fun _ _ _ => [1])
        ⟨[[]], [], [], [1], []⟩ 1 [0] 2 none := by
  constructor <;>
    · unfold get_ms_smc_loglik_from_embedding smcRates smcReduction broadcast1d expon_logpdf
      norm_num

/-- Claim C7 as amended: the dispatch performs no validation — every
selector other than 0 and 1 is routed to the topology-change rate
provider, exactly as selector 2 is. -/
theorem C7_unrecognized_selector_amended (treeFn topoFn : RateFn) (E : TreeEmbedding)
    (rr : ℝ) (lengths : List ℝ) (event_type : ℤ) (idxs : Option (List ℕ))
    (h0 : event_type ≠ 0) (h1 : event_type ≠ 1) :
    get_ms_smc_loglik_from_embedding treeFn topoFn E rr lengths event_type idxs =
      get_ms_smc_loglik_from_embedding treeFn topoFn E rr lengths 2 idxs := by
  unfold get_ms_smc_loglik_from_embedding smcRates
  simp [h0, h1]

/-- Witness for the amended C7 at selector 3. -/
theorem C7_unrecognized_selector_amended_witness :
    ((3 : ℤ) ≠ 0 ∧ (3 : ℤ) ≠ 1) ∧
    get_ms_smc_loglik_from_embedding (fun _ _ _ => [5]) (fun _ _ _ => [1])
        ⟨[[]], [], [], [1], []⟩ 1 [0] 3 none =
      get_ms_smc_loglik_from_embedding (fun _ _ _ => [5]) (fun _ _ _ => [1])
        ⟨[[]], [], [], [1], []⟩ 1 [0] 2 none :=
  ⟨⟨by norm_num, by norm_num⟩,
    C7_unrecognized_selector_amended _ _ _ _ _ _ _ (by norm_num) (by norm_num)⟩

/-- Claim C8, counterexample: for event type 0 with the
genealogy-index subset `[0]` over a 2-genealogy embedding, the rates
produced are still one per genealogy of the *full* embedding (the
provider's `**kwargs` absorbs and ignores `idxs`); the output length
is 2, not the subset length 1. -/
theorem C8_counterexample_idxs :
    smcRates (fun _ _ _ => []) (fun _ _ _ => []) ⟨[[], []], [], [], [3, 4], []⟩ 1 0
        (some [0]) = [1 * 3, 1 * 4] ∧
    (smcRates (fun _ _ _ => []) (fun _ _ _ => []) ⟨[[], []], [], [], [3, 4], []⟩ 1 0
        (some [0])).length ≠ ([0] : List ℕ).length := by
  constructor
  · rfl
  · unfold smcRates recombEventRateFn get_recomb_event_lambdas
    norm_num

/-- Claim C8 as amended: for event type 0 each returned rate equals
`recombination_rate` times the genealogy's total branch length, but
the output always has one entry per genealogy of the full embedding
— the index subset is ignored by this provider. -/
theorem C8_event0_rates_amended (treeFn topoFn : RateFn) (E : TreeEmbedding)
    (rr : ℝ) (idxs : Option (List ℕ)) :
    smcRates treeFn topoFn E rr 0 idxs = E.sarr.map (fun s => rr * s) ∧
    (smcRates treeFn topoFn E rr 0 idxs).length = E.sarr.length := by
  constructor <;> simp [smcRates, recombEventRateFn, get_recomb_event_lambdas]

/-! ### Theorems about the Ne-update utility -/

lemma foldl_map_comm (l : List (ℕ × ℝ)) (emb : List (List Row)) :
    l.foldl (fun acc ip => acc.map (List.map (fun r => applyPair r ip))) emb =
      emb.map (List.map (fun r => l.foldl applyPair r)) := by
  induction l generalizing emb with
  | nil => simp
  | cons ip t ih =>
      rw [List.foldl_cons, ih]
      simp only [List.map_map]
      congr 1
      funext g
      simp only [Function.comp_apply, List.map_map]
      rfl

lemma foldl_enumFrom_lt (ps : List ℝ) (k : ℕ) (r : Row) (h : r.spIdx < k) :
    (List.enumFrom k ps).foldl applyPair r = r := by
  induction ps generalizing k r with
  | nil => rfl
  | cons p t ih =>
      rw [show List.enumFrom k (p :: t) = (k, p) :: List.enumFrom (k + 1) t from rfl,
        List.foldl_cons]
      have hne : r.spIdx ≠ k := Nat.ne_of_lt h
      rw [show applyPair r (k, p) = r from by simp [applyPair, hne]]
      exact ih (k + 1) r (Nat.lt_succ_of_lt h)

lemma foldl_enumFrom_eq (ps : List ℝ) (k : ℕ) (r : Row) :
    (List.enumFrom k ps).foldl applyPair r =
      if h : k ≤ r.spIdx ∧ r.spIdx - k < ps.length
      then { r with neff := ps.get ⟨r.spIdx - k, h.2⟩ }
      else r := by
  induction ps generalizing k r with
  | nil => simp
  | cons p t ih =>
      rw [show List.enumFrom k (p :: t) = (k, p) :: List.enumFrom (k + 1) t from rfl,
        List.foldl_cons]
      by_cases hk : r.spIdx = k
      · rw [show applyPair r (k, p) = { r with neff := p } from by simp [applyPair, hk]]
        rw [foldl_enumFrom_lt t (k + 1) _ (by simp [hk])]
        have hcond : k ≤ r.spIdx ∧ r.spIdx - k < (p :: t).length := by
          constructor
          · omega
          · simp [hk]
        rw [dif_pos hcond]
        congr 1
        have hzero : r.spIdx - k = 0 := by omega
        simp [hzero]
      · rw [show applyPair r (k, p) = r from by simp [applyPair, hk]]
        rw [ih (k + 1) r]
        by_cases hle : k + 1 ≤ r.spIdx ∧ r.spIdx - (k + 1) < t.length
        · rw [dif_pos hle]
          have hcond : k ≤ r.spIdx ∧ r.spIdx - k < (p :: t).length := by
            simp only [List.length_cons]
            omega
          rw [dif_pos hcond]
          have hidx : r.spIdx - k = (r.spIdx - (k + 1)) + 1 := by omega
          congr 1
          simp only [hidx]
          rfl
        · rw [dif_neg hle]
          have hcond : ¬ (k ≤ r.spIdx ∧ r.spIdx - k < (p :: t).length) := by
            simp only [List.length_cons]
            omega
          rw [dif_neg hcond]

lemma update_neffs_per_branch (emb : List (List Row)) (ps : List ℝ)
    (h : ¬ ps.toFinset.card = 1) :
    _update_neffs emb ps =
      emb.map (List.map (fun r =>
        if hh : r.spIdx < ps.length
        then { r with neff := ps.get ⟨r.spIdx, hh⟩ } else r)) := by
  unfold _update_neffs
  rw [if_neg h, show ps.enum = List.enumFrom 0 ps from rfl, foldl_map_comm]
  congr 1
  funext g
  congr 1
  funext r
  rw [foldl_enumFrom_eq]
  by_cases hh : r.spIdx < ps.length
  · rw [dif_pos ⟨Nat.zero_le _, by simpa using hh⟩, dif_pos hh]
    simp
  · rw [dif_neg (by simpa using hh), dif_neg hh]

lemma toFinset_card_one_iff (ps : List ℝ) :
    ps.toFinset.card = 1 ↔ ps ≠ [] ∧ ∀ p ∈ ps, p = ps.headI := by
  constructor
  · intro h
    obtain ⟨a, ha⟩ := Finset.card_eq_one.mp h
    have hmem : ∀ p, p ∈ ps ↔ p = a := by
      intro p
      rw [← List.mem_toFinset, ha, Finset.mem_singleton]
    cases ps with
    | nil => simp at h
    | cons hd tl =>
        have hhd : hd = a := (hmem hd).mp (List.mem_cons_self hd tl)
        refine ⟨List.cons_ne_nil hd tl, ?_⟩
        intro p hp
        rw [(hmem p).mp hp, List.headI, hhd]
  · rintro ⟨hne, hall⟩
    cases ps with
    | nil => exact absurd rfl hne
    | cons hd tl =>
        have hsingle : (hd :: tl).toFinset = {hd} := by
          ext x
          simp only [List.mem_toFinset, Finset.mem_singleton]
          constructor
          · intro hx
            rw [hall x hx]
            rfl
          · intro hx
            rw [hx]
            exact List.mem_cons_self hd tl
        rw [hsingle, Finset.card_singleton]

/-- Claim C9: the Ne-update utility broadcasts the single shared
value to field 3 of every row when all entries of the
population-size vector are equal (and the vector is nonempty);
otherwise it writes, for each branch index `i` of the vector, the
`i`-th value into field 3 of exactly the rows whose field 2 equals
`i`.  In both cases the stored value is the supplied `popsizes`
entry itself — no Ne-to-2Ne rescaling (contrary to the code's own
docstring, which says the utility "stores to the array as 2Ne"). -/
theorem C9_update_neffs_modes (emb : List (List Row)) (ps : List ℝ) :
    ((ps ≠ [] ∧ ∀ p ∈ ps, p = ps.headI) →
      _update_neffs emb ps =
        emb.map (List.map (fun r => { r with neff := ps.headI }))) ∧
    ((¬ ∀ p ∈ ps, p = ps.headI) →
      _update_neffs emb ps =
        emb.map (List.map (fun r =>
          if hh : r.spIdx < ps.length
          then { r with neff := ps.get ⟨r.spIdx, hh⟩ } else r))) := by
  constructor
  · intro hc
    unfold _update_neffs
    rw [if_pos ((toFinset_card_one_iff ps).mpr hc)]
  · intro hc
    apply update_neffs_per_branch
    rw [toFinset_card_one_iff]
    intro hcc
    exact hc hcc.2

/-- Witness for C9: both modes exercised on a one-row embedding. -/
theorem C9_update_neffs_modes_witness :
    ((([5, 5] : List ℝ) ≠ [] ∧ ∀ p ∈ ([5, 5] : List ℝ), p = ([5, 5] : List ℝ).headI) ∧
      _update_neffs [[⟨1, 0, 0, 0, false⟩]] [5, 5] =
        ([[⟨1, 0, 0, 0, false⟩]] : List (List Row)).map
          (List.map (fun r => { r with neff := ([5, 5] : List ℝ).headI }))) ∧
    ((¬ ∀ p ∈ ([3, 4] : List ℝ), p = ([3, 4] : List ℝ).headI) ∧
      _update_neffs [[⟨1, 0, 0, 0, false⟩]] [3, 4] =
        ([[⟨1, 0, 0, 0, false⟩]] : List (List Row)).map
          (List.map (fun r =>
            if hh : r.spIdx < ([3, 4] : List ℝ).length
            then { r with neff := ([3, 4] : List ℝ).get ⟨r.spIdx, hh⟩ } else r))) := by
  have h1 : (([5, 5] : List ℝ) ≠ [] ∧ ∀ p ∈ ([5, 5] : List ℝ), p = ([5, 5] : List ℝ).headI) := by
    refine ⟨by simp, ?_⟩
    intro p hp
    rcases List.mem_cons.mp hp with h | h
    · simpa using h
    · simpa using h
  have h2 : ¬ ∀ p ∈ ([3, 4] : List ℝ), p = ([3, 4] : List ℝ).headI := by
    intro hall
    have h4 := hall 4 (by simp)
    norm_num [List.headI] at h4
  exact ⟨⟨h1, (C9_update_neffs_modes _ _).1 h1⟩,
    ⟨h2, (C9_update_neffs_modes _ _).2 h2⟩⟩

/-- Claim C10 (frame conditions of the Ne-update utility): every
field other than field 3 of every row is unchanged (so is the array
shape, encoded by `rowAt` agreeing on `none`); in per-branch mode a
row whose field 2 is not an index into the vector keeps even its
field 3; in broadcast mode every row's field 3 is overwritten
regardless of its field 2. -/
theorem C10_update_neffs_frame (emb : List (List Row)) (ps : List ℝ) (gi ri : ℕ) :
    ((rowAt (_update_neffs emb ps) gi ri).map Row.spIdx = (rowAt emb gi ri).map Row.spIdx) ∧
    ((rowAt (_update_neffs emb ps) gi ri).map Row.nedges = (rowAt emb gi ri).map Row.nedges) ∧
    ((rowAt (_update_neffs emb ps) gi ri).map Row.dist = (rowAt emb gi ri).map Row.dist) ∧
    ((rowAt (_update_neffs emb ps) gi ri).map Row.distInf = (rowAt emb gi ri).map Row.distInf) ∧
    (¬ ps.toFinset.card = 1 → ∀ r, rowAt emb gi ri = some r → ps.length ≤ r.spIdx →
      rowAt (_update_neffs emb ps) gi ri = some r) ∧
    (ps.toFinset.card = 1 → ∀ r, rowAt emb gi ri = some r →
      rowAt (_update_neffs emb ps) gi ri = some { r with neff := ps.headI }) := by
  have key : ∀ (f : Row → Row) (e : List (List Row)),
      rowAt (e.map (List.map f)) gi ri = (rowAt e gi ri).map f := by
    intro f e
    unfold rowAt
    rw [List.get?_map]
    cases e.get? gi with
    | none => rfl
    | some g => simp [List.get?_map]
  by_cases hc : ps.toFinset.card = 1
  · have hres : _update_neffs emb ps =
        emb.map (List.map (fun r => { r with neff := ps.headI })) := by
      unfold _update_neffs
      rw [if_pos hc]
    rw [hres, key]
    refine ⟨?_, ?_, ?_, ?_, ?_, ?_⟩
    · cases rowAt emb gi ri <;> rfl
    · cases rowAt emb gi ri <;> rfl
    · cases rowAt emb gi ri <;> rfl
    · cases rowAt emb gi ri <;> rfl
    · intro hnc
      exact absurd hc hnc
    · intro _ r hr
      rw [hr]
      rfl
  · rw [update_neffs_per_branch emb ps hc, key]
    refine ⟨?_, ?_, ?_, ?_, ?_, ?_⟩
    · cases rowAt emb gi ri with
      | none => rfl
      | some r =>
          simp only [Option.map_some']
          by_cases hh : r.spIdx < ps.length <;> simp [hh]
    · cases rowAt emb gi ri with
      | none => rfl
      | some r =>
          simp only [Option.map_some']
          by_cases hh : r.spIdx < ps.length <;> simp [hh]
    · cases rowAt emb gi ri with
      | none => rfl
      | some r =>
          simp only [Option.map_some']
          by_cases hh : r.spIdx < ps.length <;> simp [hh]
    · cases rowAt emb gi ri with
      | none => rfl
      | some r =>
          simp only [Option.map_some']
          by_cases hh : r.spIdx < ps.length <;> simp [hh]
    · intro _ r hr hlen
      rw [hr]
      simp only [Option.map_some']
      rw [dif_neg (by omega)]
    · intro hcc
      exact absurd hcc hc

/-- Witness for C10: the per-branch untouched-row clause at a row
whose field 2 (= 7) is outside the 2-entry vector `[3, 4]`. -/
theorem C10_update_neffs_frame_witness :
    (¬ ([3, 4] : List ℝ).toFinset.card = 1) ∧
    rowAt (_update_neffs [[⟨7, 1, 2, 3, false⟩]] [3, 4]) 0 0 =
      some ⟨7, 1, 2, 3, false⟩ := by
  have hnc : ¬ ([3, 4] : List ℝ).toFinset.card = 1 := by
    rw [toFinset_card_one_iff]
    intro hcc
    have h4 := hcc.2 4 (by simp)
    norm_num [List.headI] at h4
  exact ⟨hnc, (C10_update_neffs_frame [[⟨7, 1, 2, 3, false⟩]] [3, 4] 0 0).2.2.2.2.1
    hnc ⟨7, 1, 2, 3, false⟩ rfl (by norm_num)⟩

end Ipcoal
